import Mathlib

/-!
Verification of the Mandelbrot renderer (`src/main.rs`).

Modelling conventions:
* `f64` values are modelled as exact rationals (`ℚ`); every claim below is
  settled over this exact-arithmetic model of the floating-point code.
* Rust strings are modelled as `List Char`; `str::find` is modelled by
  `strFind`, returning the index of the first occurrence of a character.
* Rust `panic!`/`assert!` failures are modelled as `Option.none` results.
* Machine integers (`u32`, `u8`, `usize`) are modelled as `ℕ`; the `u8`
  truncating cast `value as u8` is `value % 256`, and the `u8` subtraction
  `255 - x` is modelled both totally (it can never underflow, since
  `x % 256 ≤ 255`) and by the checked variant `sub_u8` that returns `none`
  exactly when the subtraction would underflow (the panic case).
-/

namespace Mandelbrot

/-- Complex number with exact rational components, modelling `num::Complex<f64>`. -/
structure Cplx where
  re : ℚ
  im : ℚ
deriving DecidableEq

/-- Complex addition, as in the `num` crate. -/
def Cplx.add (a b : Cplx) : Cplx := ⟨a.re + b.re, a.im + b.im⟩

/-- Complex multiplication, as in the `num` crate. -/
def Cplx.mul (a b : Cplx) : Cplx := ⟨a.re * b.re - a.im * b.im, a.re * b.im + a.im * b.re⟩

instance : Add Cplx := ⟨Cplx.add⟩

instance : Mul Cplx := ⟨Cplx.mul⟩

/-- `Complex::norm_sqr`: squared magnitude `re*re + im*im`. -/
def Cplx.norm_sqr (a : Cplx) : ℚ := a.re * a.re + a.im * a.im

@[simp]
theorem Cplx.add_def (a b : Cplx) : a + b = ⟨a.re + b.re, a.im + b.im⟩ := rfl

@[simp]
theorem Cplx.mul_def (a b : Cplx) :
    a * b = ⟨a.re * b.re - a.im * b.im, a.re * b.im + a.im * b.re⟩ := rfl

/-- `str::find(separator)`: index of the first occurrence of a character, `none`
if the character does not occur. -/
def strFind (s : List Char) (c : Char) : Option ℕ :=
  match s with
  | [] => none
  | a :: rest => if a = c then some 0 else (strFind rest c).map (· + 1)

/-- `parse_pair` from `src/main.rs`: split the input at the first occurrence of
`separator` and parse both halves with the element parser `fromStr`
(modelling `T::from_str`); `none` when the separator is absent or either
half fails to parse. -/
def parse_pair {T : Type} (fromStr : List Char → Option T) (s : List Char)
    (separator : Char) : Option (T × T) :=
  match strFind s separator with
  | none => none
  | some index =>
    match fromStr (s.take index), fromStr (s.drop (index + 1)) with
    | some l, some r => some (l, r)
    | _, _ => none

/-- `parse_complex` from `src/main.rs`: a comma-separated pair of rationals
(modelling the two `f64` components) as a complex number. -/
def parse_complex (fromStr : List Char → Option ℚ) (s : List Char) : Option Cplx :=
  match parse_pair fromStr s ',' with
  | some (re, im) => some ⟨re, im⟩
  | none => none

/-- `pixel_to_point` from `src/main.rs`: map a pixel position to a point of the
plane rectangle spanned by `upper_left` and `lower_right`. -/
def pixel_to_point (bounds : ℕ × ℕ) (pixel : ℕ × ℕ)
    (upper_left lower_right : Cplx) : Cplx :=
  let width : ℚ := lower_right.re - upper_left.re
  let height : ℚ := upper_left.im - lower_right.im
  ⟨upper_left.re + (pixel.1 : ℚ) * width / (bounds.1 : ℚ),
   upper_left.im - (pixel.2 : ℚ) * height / (bounds.2 : ℚ)⟩

/-- The loop of `mandelbrot` from `src/main.rs`: `z` is the loop variable, `i`
the current iteration index, `fuel` the remaining iterations.  The source
escape test is `z.norm_sqr() > 2.0` (threshold `2.0`, not `4.0`). -/
def mandelbrotLoop (c : Cplx) : Cplx → ℕ → ℕ → Option ℕ
  | _, _, 0 => none
  | z, i, fuel + 1 =>
    let z1 := z * z + c
    if 2 < z1.norm_sqr then some i else mandelbrotLoop c z1 (i + 1) fuel

/-- `mandelbrot` from `src/main.rs`: starting from `z = 0`, iterate
`z = z*z + c` at most `limit` times, returning `some i` at the first
iteration `i` whose updated `z` has `norm_sqr > 2.0`, else `none`. -/
def mandelbrot (c : Cplx) (limit : ℕ) : Option ℕ :=
  mandelbrotLoop c ⟨0, 0⟩ 0 limit

/-- The iterates of the Mandelbrot map: `zIter c n` is `z` after `n` updates
`z = z*z + c` starting from `z = 0`. -/
def zIter (c : Cplx) : ℕ → Cplx
  | 0 => ⟨0, 0⟩
  | n + 1 => zIter c n * zIter c n + c

/-- The Escape-Time Evaluator as the spec words it: identical to `mandelbrot`
except that the squared-magnitude escape threshold is `4.0` instead of the
source's `2.0`.  Used only to compare the spec's threshold against the code. -/
def mandelbrotSpecLoop (c : Cplx) : Cplx → ℕ → ℕ → Option ℕ
  | _, _, 0 => none
  | z, i, fuel + 1 =>
    let z1 := z * z + c
    if 4 < z1.norm_sqr then some i else mandelbrotSpecLoop c z1 (i + 1) fuel

/-- The spec-worded Escape-Time Evaluator with threshold `4.0`; compare
`mandelbrot`. -/
def mandelbrotSpec (c : Cplx) (limit : ℕ) : Option ℕ :=
  mandelbrotSpecLoop c ⟨0, 0⟩ 0 limit

/-- An RGB pixel (`struct Color` in `src/main.rs`); components are `u8` values
modelled as naturals. -/
structure Color where
  r : ℕ
  g : ℕ
  b : ℕ
deriving DecidableEq

/-- Checked `u8` subtraction: `none` models the arithmetic-underflow panic. -/
def sub_u8 (a b : ℕ) : Option ℕ := if b ≤ a then some (a - b) else none

/-- `color_from_value` from `src/main.rs`.  The `u8` expression
`255 - value as u8` is `255 - value % 256` (truncating cast, then `u8`
subtraction, which cannot underflow since `value % 256 ≤ 255`). -/
def color_from_value (value : ℕ) : Color :=
  if value ≤ 30 then ⟨50, 60, 50⟩
  else if 30 < value ∧ value ≤ 90 then ⟨255 - value % 256, 255 - value % 256, 20⟩
  else if 90 < value ∧ value ≤ 200 then ⟨40, 255 - value % 256, 255 - value % 256⟩
  else ⟨10, 20, 255 - value % 256⟩

/-- `color_from_value` with the `u8` subtractions modelled as checked
subtraction (`none` models an underflow panic); everything else as in
`color_from_value`. -/
def color_from_value_checked (value : ℕ) : Option Color :=
  if value ≤ 30 then some ⟨50, 60, 50⟩
  else if 30 < value ∧ value ≤ 90 then
    (sub_u8 255 (value % 256)).bind fun s => some ⟨s, s, 20⟩
  else if 90 < value ∧ value ≤ 200 then
    (sub_u8 255 (value % 256)).bind fun s => some ⟨40, s, s⟩
  else
    (sub_u8 255 (value % 256)).bind fun s => some ⟨10, 20, s⟩

/-- The `match` in `render`'s loop body: `None` (did not escape) is black,
`Some value` goes through `color_from_value`. -/
def colorPixel : Option ℕ → Color
  | none => ⟨0, 0, 0⟩
  | some value => color_from_value value

/-- `render` from `src/main.rs`: assert the buffer length (failure modelled as
`none`), then for each row `y` and column `x` store the pixel's color at
linear index `y * bounds.1 + x`. -/
def render (pixels : List Color) (bounds : ℕ × ℕ)
    (upper_left lower_right : Cplx) : Option (List Color) :=
  if pixels.length = bounds.1 * bounds.2 then
    some ((List.range bounds.2).foldl (fun buf y =>
      (List.range bounds.1).foldl (fun buf x =>
        buf.set (y * bounds.1 + x)
          (colorPixel (mandelbrot (pixel_to_point bounds (x, y) upper_left lower_right) 255)))
        buf) pixels)
  else none

theorem mandelbrotLoop_zero (c z : Cplx) (i : ℕ) : mandelbrotLoop c z i 0 = none := rfl

theorem mandelbrotLoop_succ (c z : Cplx) (i fuel : ℕ) :
    mandelbrotLoop c z i (fuel + 1) =
      if 2 < (z * z + c).norm_sqr then some i
      else mandelbrotLoop c (z * z + c) (i + 1) fuel := rfl

theorem zIter_succ (c : Cplx) (n : ℕ) :
    zIter c (n + 1) = zIter c n * zIter c n + c := rfl

theorem mandelbrotLoop_some_iff (c : Cplx) :
    ∀ fuel k i : ℕ,
      mandelbrotLoop c (zIter c k) k fuel = some i ↔
        k ≤ i ∧ i < k + fuel ∧ 2 < (zIter c (i + 1)).norm_sqr ∧
          ∀ j, k ≤ j → j < i → ¬ 2 < (zIter c (j + 1)).norm_sqr := by
  intro fuel
  induction fuel with
  | zero =>
    intro k i
    simp only [mandelbrotLoop_zero]
    constructor
    · intro h; exact absurd h (by simp)
    · rintro ⟨h1, h2, -, -⟩; omega
  | succ fuel ih =>
    intro k i
    rw [mandelbrotLoop_succ, ← zIter_succ]
    by_cases hesc : 2 < (zIter c (k + 1)).norm_sqr
    · rw [if_pos hesc]
      constructor
      · intro h
        have hki : k = i := by injection h
        subst hki
        exact ⟨Nat.le_refl k, by omega, hesc, fun j hj1 hj2 => by omega⟩
      · rintro ⟨h1, -, -, h4⟩
        rcases Nat.eq_or_lt_of_le h1 with rfl | hlt
        · rfl
        · exact absurd hesc (h4 k (Nat.le_refl k) hlt)
    · rw [if_neg hesc, ih (k + 1) i]
      constructor
      · rintro ⟨h1, h2, h3, h4⟩
        refine ⟨by omega, by omega, h3, fun j hj1 hj2 => ?_⟩
        rcases Nat.eq_or_lt_of_le hj1 with rfl | hlt
        · exact hesc
        · exact h4 j hlt hj2
      · rintro ⟨h1, h2, h3, h4⟩
        have hki : k ≠ i := by rintro rfl; exact hesc h3
        exact ⟨by omega, by omega, h3, fun j hj1 hj2 => h4 j (by omega) hj2⟩

theorem mandelbrotLoop_none_iff (c : Cplx) :
    ∀ fuel k : ℕ,
      mandelbrotLoop c (zIter c k) k fuel = none ↔
        ∀ j, k ≤ j → j < k + fuel → ¬ 2 < (zIter c (j + 1)).norm_sqr := by
  intro fuel
  induction fuel with
  | zero =>
    intro k
    simp only [mandelbrotLoop_zero, true_iff]
    intro j hj1 hj2
    omega
  | succ fuel ih =>
    intro k
    rw [mandelbrotLoop_succ, ← zIter_succ]
    by_cases hesc : 2 < (zIter c (k + 1)).norm_sqr
    · rw [if_pos hesc]
      constructor
      · intro h; exact absurd h (by simp)
      · intro h; exact absurd hesc (h k (Nat.le_refl k) (by omega))
    · rw [if_neg hesc, ih (k + 1)]
      constructor
      · intro h j hj1 hj2
        rcases Nat.eq_or_lt_of_le hj1 with rfl | hlt
        · exact hesc
        · exact h j hlt (by omega)
      · intro h j hj1 hj2
        exact h j (by omega) (by omega)

/-- Claim C1 (amended: the escape threshold the source tests against is `2.0`
on the squared magnitude, not the spec's `4.0`): starting from `z = 0` and
repeatedly setting `z = z*z + c`, `mandelbrot` returns `some i` exactly when
`i` is the earliest iteration index in `[0, limit)` whose updated `z` has
squared magnitude exceeding `2.0`, and returns `none` exactly when no
iteration in `[0, limit)` exceeds that threshold. -/
theorem mandelbrot_escape_time (c : Cplx) (limit i : ℕ) :
    (mandelbrot c limit = some i ↔
      i < limit ∧ 2 < (zIter c (i + 1)).norm_sqr ∧
        ∀ j, j < i → ¬ 2 < (zIter c (j + 1)).norm_sqr) ∧
    (mandelbrot c limit = none ↔
      ∀ j, j < limit → ¬ 2 < (zIter c (j + 1)).norm_sqr) := by
  have h0 : mandelbrot c limit = mandelbrotLoop c (zIter c 0) 0 limit := rfl
  constructor
  · rw [h0, mandelbrotLoop_some_iff]
    constructor
    · rintro ⟨-, h2, h3, h4⟩
      exact ⟨by omega, h3, fun j hj => h4 j (Nat.zero_le j) hj⟩
    · rintro ⟨h1, h2, h3⟩
      exact ⟨Nat.zero_le i, by omega, h2, fun j _ hj => h3 j hj⟩
  · rw [h0, mandelbrotLoop_none_iff]
    constructor
    · intro h j hj
      exact h j (Nat.zero_le j) (by omega)
    · intro h j _ hj
      exact h j (by omega)

/-- Claim C1 witness: applying the characterization at `c = 3`, `limit = 5`. -/
theorem mandelbrot_escape_time_witness : mandelbrot ⟨3, 0⟩ 5 = some 0 :=
  ((mandelbrot_escape_time ⟨3, 0⟩ 5 0).1).mpr
    ⟨by norm_num, by norm_num [zIter, Cplx.norm_sqr],
     fun j hj => absurd hj (Nat.not_lt_zero j)⟩

/-- Claim C1 counterexample: at `c = 3/2 + 0i` with `limit = 1`, the first
iterate has squared magnitude `9/4`, which does not exceed the spec's
threshold `4.0`, yet the code reports escape at iteration `0` (and the
spec-worded evaluator with threshold `4.0` reports "did not escape"). -/
theorem mandelbrot_threshold_cex :
    mandelbrot ⟨3/2, 0⟩ 1 = some 0 ∧
    ¬ 4 < (zIter ⟨3/2, 0⟩ 1).norm_sqr ∧
    mandelbrotSpec ⟨3/2, 0⟩ 1 = none := by
  refine ⟨?_, ?_, ?_⟩ <;>
    norm_num [mandelbrot, mandelbrotLoop, mandelbrotSpec, mandelbrotSpecLoop,
      zIter, Cplx.norm_sqr]

/-- Claim C5: every `c` with `|c| > 2` (that is, `norm_sqr c > 4`) escapes at
some iteration strictly below any positive limit; indeed it escapes at
iteration `0`, since the first iterate is `c` itself. -/
theorem escape_outside_radius_two (c : Cplx) (limit : ℕ)
    (hc : 4 < c.norm_sqr) (hl : 0 < limit) :
    ∃ i, i < limit ∧ mandelbrot c limit = some i := by
  refine ⟨0, hl, ?_⟩
  obtain ⟨fuel, rfl⟩ : ∃ f, limit = f + 1 := ⟨limit - 1, by omega⟩
  show mandelbrotLoop c ⟨0, 0⟩ 0 (fuel + 1) = some 0
  have hz : ((⟨0, 0⟩ : Cplx) * ⟨0, 0⟩ + c) = c := by
    cases c; simp
  rw [mandelbrotLoop_succ, hz, if_pos (by linarith)]

/-- Claim C5 witness: `c = 3` with `limit = 1`. -/
theorem escape_outside_radius_two_witness :
    ∃ i, i < 1 ∧ mandelbrot ⟨3, 0⟩ 1 = some i :=
  escape_outside_radius_two ⟨3, 0⟩ 1 (by norm_num [Cplx.norm_sqr]) (by norm_num)

theorem mandelbrotLoop_origin (fuel : ℕ) :
    ∀ k, mandelbrotLoop ⟨0, 0⟩ ⟨0, 0⟩ k fuel = none := by
  induction fuel with
  | zero => intro k; rfl
  | succ fuel ih =>
    intro k
    have hz : ((⟨0, 0⟩ : Cplx) * ⟨0, 0⟩ + ⟨0, 0⟩) = ⟨0, 0⟩ := by simp
    rw [mandelbrotLoop_succ, hz, if_neg (by norm_num [Cplx.norm_sqr])]
    exact ih (k + 1)

/-- Claim C6: the origin never escapes: for every positive limit, `mandelbrot`
at `c = 0 + 0i` returns "did not escape". -/
theorem mandelbrot_origin (limit : ℕ) (hl : 0 < limit) :
    mandelbrot ⟨0, 0⟩ limit = none :=
  mandelbrotLoop_origin limit 0

/-- Claim C6 witness: `limit = 7`. -/
theorem mandelbrot_origin_witness : mandelbrot ⟨0, 0⟩ 7 = none :=
  mandelbrot_origin 7 (by norm_num)

/-- Claim C3: the Coordinate Mapper computes
`re = upper_left.re + x * (lower_right.re - upper_left.re) / w` and
`im = upper_left.im - y * (upper_left.im - lower_right.im) / h`, and on
bounds `(100,100)`, pixel `(25,75)`, upper-left `(-1,1)`, lower-right
`(1,-1)` it yields `(-1/2, -1/2)`. -/
theorem pixel_to_point_formula :
    (∀ (w h x y : ℕ) (ul lr : Cplx),
        pixel_to_point (w, h) (x, y) ul lr =
          ⟨ul.re + (x : ℚ) * (lr.re - ul.re) / (w : ℚ),
           ul.im - (y : ℚ) * (ul.im - lr.im) / (h : ℚ)⟩) ∧
    pixel_to_point (100, 100) (25, 75) ⟨-1, 1⟩ ⟨1, -1⟩ =
      ⟨-(1 : ℚ)/2, -(1 : ℚ)/2⟩ :=
  ⟨fun _ _ _ _ _ _ => rfl, by norm_num [pixel_to_point]⟩

/-- Claim C7: pixel `(0,0)` maps exactly to the upper-left corner, for all
positive bounds and every plane rectangle (exact equality in the
exact-arithmetic model of `f64`). -/
theorem pixel_zero_is_upper_left (w h : ℕ) (ul lr : Cplx)
    (hw : 1 ≤ w) (hh : 1 ≤ h) :
    pixel_to_point (w, h) (0, 0) ul lr = ul := by
  cases ul
  simp [pixel_to_point]

/-- Claim C7 witness: bounds `(100,100)` on the rectangle from `(-1,1)` to
`(1,-1)`. -/
theorem pixel_zero_is_upper_left_witness :
    pixel_to_point (100, 100) (0, 0) ⟨-1, 1⟩ ⟨1, -1⟩ = ⟨-1, 1⟩ :=
  pixel_zero_is_upper_left 100 100 ⟨-1, 1⟩ ⟨1, -1⟩ (by norm_num) (by norm_num)

/-- Claim C2: for iteration results produced with limit 255 (escape counts in
`[0, 255)` or "did not escape"), the pixel equals the banding table, and
exactly one of the five banding rules applies to any given input. -/
theorem color_mapper_bands (v : ℕ) (hv : v < 255) :
    colorPixel none = ⟨0, 0, 0⟩ ∧
    (v ≤ 30 → colorPixel (some v) = ⟨50, 60, 50⟩) ∧
    (30 < v ∧ v ≤ 90 → colorPixel (some v) = ⟨255 - v, 255 - v, 20⟩) ∧
    (90 < v ∧ v ≤ 200 → colorPixel (some v) = ⟨40, 255 - v, 255 - v⟩) ∧
    (200 < v → colorPixel (some v) = ⟨10, 20, 255 - v⟩) ∧
    ((v ≤ 30 ∧ ¬(30 < v ∧ v ≤ 90) ∧ ¬(90 < v ∧ v ≤ 200) ∧ ¬ 200 < v) ∨
     (¬ v ≤ 30 ∧ (30 < v ∧ v ≤ 90) ∧ ¬(90 < v ∧ v ≤ 200) ∧ ¬ 200 < v) ∨
     (¬ v ≤ 30 ∧ ¬(30 < v ∧ v ≤ 90) ∧ (90 < v ∧ v ≤ 200) ∧ ¬ 200 < v) ∨
     (¬ v ≤ 30 ∧ ¬(30 < v ∧ v ≤ 90) ∧ ¬(90 < v ∧ v ≤ 200) ∧ 200 < v)) := by
  have hmod : v % 256 = v := Nat.mod_eq_of_lt (by omega)
  refine ⟨rfl, ?_, ?_, ?_, ?_, by omega⟩
  · intro h
    show color_from_value v = _
    rw [color_from_value, if_pos h]
  · intro h
    show color_from_value v = _
    rw [color_from_value, if_neg (by omega), if_pos h, hmod]
  · intro h
    show color_from_value v = _
    rw [color_from_value, if_neg (by omega), if_neg (by omega), if_pos h, hmod]
  · intro h
    show color_from_value v = _
    rw [color_from_value, if_neg (by omega), if_neg (by omega),
      if_neg (by omega), hmod]

/-- Claim C2 witness: escape count 100 lands in the third band. -/
theorem color_mapper_bands_witness : colorPixel (some 100) = ⟨40, 155, 155⟩ :=
  (color_mapper_bands 100 (by norm_num)).2.2.2.1 ⟨by norm_num, by norm_num⟩

/-- Claim C10: the Color Mapper is total on every `u32` escape count: the
checked model of the `u8` subtractions never underflows (no panic), and in
every subtracting band the result is `255 - (value mod 256)` — wrap-around
via the truncating cast, not saturation. -/
theorem color_from_value_total (value : ℕ) (hv : value < 2 ^ 32) :
    color_from_value_checked value = some (color_from_value value) ∧
    (30 < value ∧ value ≤ 90 →
      color_from_value value = ⟨255 - value % 256, 255 - value % 256, 20⟩) ∧
    (90 < value ∧ value ≤ 200 →
      color_from_value value = ⟨40, 255 - value % 256, 255 - value % 256⟩) ∧
    (¬ value ≤ 30 ∧ ¬(30 < value ∧ value ≤ 90) ∧ ¬(90 < value ∧ value ≤ 200) →
      color_from_value value = ⟨10, 20, 255 - value % 256⟩) := by
  have hle : value % 256 ≤ 255 := by omega
  refine ⟨?_, ?_, ?_, ?_⟩
  · by_cases h1 : value ≤ 30 <;> by_cases h2 : 30 < value ∧ value ≤ 90 <;>
      by_cases h3 : 90 < value ∧ value ≤ 200 <;>
      simp [color_from_value, color_from_value_checked, sub_u8, h1, h2, h3, hle]
  · intro h
    rw [color_from_value, if_neg (by omega), if_pos h]
  · intro h
    rw [color_from_value, if_neg (by omega), if_neg (by omega), if_pos h]
  · rintro ⟨h1, h2, h3⟩
    rw [color_from_value, if_neg h1, if_neg h2, if_neg h3]

/-- Claim C10 witness: `value = 300` exceeds 255 and still maps without
underflow, wrapping to `255 - 300 % 256 = 211` in the blue component. -/
theorem color_from_value_total_witness :
    color_from_value_checked 300 = some (color_from_value 300) :=
  (color_from_value_total 300 (by norm_num)).1

theorem strFind_nil (c : Char) : strFind [] c = none := rfl

theorem strFind_cons (a : Char) (rest : List Char) (c : Char) :
    strFind (a :: rest) c =
      if a = c then some 0 else (strFind rest c).map (· + 1) := rfl

theorem strFind_eq_some_iff (s : List Char) (c : Char) :
    ∀ i : ℕ, strFind s c = some i ↔
      s[i]? = some c ∧ ∀ j, j < i → s[j]? ≠ some c := by
  induction s with
  | nil =>
    intro i
    simp [strFind_nil]
  | cons a rest ih =>
    intro i
    rw [strFind_cons]
    by_cases hac : a = c
    · rw [if_pos hac]
      constructor
      · intro h
        have h0 : (0 : ℕ) = i := by injection h
        subst h0
        exact ⟨by simp [hac], fun j hj => absurd hj (Nat.not_lt_zero j)⟩
      · rintro ⟨h1, h2⟩
        cases i with
        | zero => rfl
        | succ n =>
          have h0 : (a :: rest)[0]? = some c := by simp [hac]
          exact absurd h0 (h2 0 (Nat.succ_pos n))
    · rw [if_neg hac]
      cases i with
      | zero =>
        constructor
        · intro h
          rcases hr : strFind rest c with - | m <;> rw [hr] at h <;> simp at h
        · rintro ⟨h1, -⟩
          exact absurd (show a = c by simpa using h1) hac
      | succ n =>
        constructor
        · intro h
          rcases hr : strFind rest c with - | m
          · rw [hr] at h; exact absurd h (by simp)
          · rw [hr] at h
            have hmn : m = n := by simpa using h
            subst hmn
            obtain ⟨h1, h2⟩ := (ih m).mp hr
            refine ⟨by simpa using h1, ?_⟩
            intro j hj
            cases j with
            | zero => simp [hac]
            | succ j => simpa using h2 j (by omega)
        · rintro ⟨h1, h2⟩
          have h1' : rest[n]? = some c := by simpa using h1
          have h2' : ∀ j, j < n → rest[j]? ≠ some c := fun j hj => by
            simpa using h2 (j + 1) (by omega)
          rw [(ih n).mpr ⟨h1', h2'⟩]
          rfl

theorem parse_pair_def {T : Type} (f : List Char → Option T) (s : List Char)
    (sep : Char) :
    parse_pair f s sep =
      match strFind s sep with
      | none => none
      | some index =>
        match f (s.take index), f (s.drop (index + 1)) with
        | some l, some r => some (l, r)
        | _, _ => none := rfl

/-- Claim C9: numeric-pair parsing returns `some (l, r)` exactly when the
delimiter occurs in the string and the substring before its first
occurrence parses to `l` while the substring after it parses to `r`;
otherwise (delimiter absent, or either side failing to parse) the result
is `none`, with no partial result. -/
theorem parse_pair_spec {T : Type} (f : List Char → Option T) (s : List Char)
    (sep : Char) (l r : T) :
    parse_pair f s sep = some (l, r) ↔
      ∃ i, s[i]? = some sep ∧ (∀ j, j < i → s[j]? ≠ some sep) ∧
        f (s.take i) = some l ∧ f (s.drop (i + 1)) = some r := by
  rw [parse_pair_def]
  rcases hf : strFind s sep with - | i
  · constructor
    · intro h
      exact absurd h (by simp)
    · rintro ⟨i, h1, h2, -, -⟩
      have hsome := (strFind_eq_some_iff s sep i).mpr ⟨h1, h2⟩
      rw [hf] at hsome
      exact absurd hsome (by simp)
  · obtain ⟨hi1, hi2⟩ := (strFind_eq_some_iff s sep i).mp hf
    change (match f (s.take i), f (s.drop (i + 1)) with
      | some a, some b => some (a, b)
      | _, _ => (none : Option (T × T))) = some (l, r) ↔ _
    constructor
    · intro h
      rcases hl : f (s.take i) with - | lv <;>
        rcases hr : f (s.drop (i + 1)) with - | rv <;>
        rw [hl, hr] at h <;> simp at h
      obtain ⟨rfl, rfl⟩ := h
      exact ⟨i, hi1, hi2, hl, hr⟩
    · rintro ⟨j, h1, h2, h3, h4⟩
      have hsome := (strFind_eq_some_iff s sep j).mpr ⟨h1, h2⟩
      rw [hf] at hsome
      have hji : j = i := by
        have := by simpa using hsome
        omega
      subst hji
      rw [h3, h4]

/-- Toy element parser used to witness `parse_pair_spec`: recognizes the
single-character strings `1` and `2`. -/
def digitOneTwo (t : List Char) : Option ℕ :=
  if t = ['1'] then some 1 else if t = ['2'] then some 2 else none

/-- Claim C9 witness: parsing the string `1x2` at delimiter `x`. -/
theorem parse_pair_spec_witness :
    ∃ i, (['1', 'x', '2'] : List Char)[i]? = some 'x' ∧
      (∀ j, j < i → (['1', 'x', '2'] : List Char)[j]? ≠ some 'x') ∧
      digitOneTwo (List.take i ['1', 'x', '2']) = some 1 ∧
      digitOneTwo (List.drop (i + 1) ['1', 'x', '2']) = some 2 :=
  (parse_pair_spec digitOneTwo ['1', 'x', '2'] 'x' 1 2).mp (by decide)

theorem foldl_set_length (idx : ℕ → ℕ) (val : ℕ → Color) :
    ∀ (n : ℕ) (buf : List Color),
      ((List.range n).foldl (fun b x => b.set (idx x) (val x)) buf).length =
        buf.length := by
  intro n
  induction n with
  | zero => intro buf; rfl
  | succ n ih =>
    intro buf
    rw [List.range_succ, List.foldl_append, List.foldl_cons, List.foldl_nil,
      List.length_set, ih]

theorem foldl_set_getElem_ne (idx : ℕ → ℕ) (val : ℕ → Color) :
    ∀ (n : ℕ) (buf : List Color) (i : ℕ), (∀ x, x < n → idx x ≠ i) →
      ((List.range n).foldl (fun b x => b.set (idx x) (val x)) buf)[i]? =
        buf[i]? := by
  intro n
  induction n with
  | zero => intro buf i _; rfl
  | succ n ih =>
    intro buf i hne
    rw [List.range_succ, List.foldl_append, List.foldl_cons, List.foldl_nil,
      List.getElem?_set_ne (hne n (by omega)),
      ih buf i (fun x hx => hne x (by omega))]

theorem foldl_set_getElem_hit (idx : ℕ → ℕ) (val : ℕ → Color) :
    ∀ (n : ℕ) (buf : List Color) (x : ℕ), x < n →
      (∀ x1, x < x1 → x1 < n → idx x1 ≠ idx x) → idx x < buf.length →
      ((List.range n).foldl (fun b x => b.set (idx x) (val x)) buf)[idx x]? =
        some (val x) := by
  intro n
  induction n with
  | zero => intro buf x hx; omega
  | succ n ih =>
    intro buf x hx hinj hlen
    rw [List.range_succ, List.foldl_append, List.foldl_cons, List.foldl_nil]
    rcases Nat.lt_or_ge x n with hxn | hxn
    · rw [List.getElem?_set_ne (hinj n hxn (by omega))]
      exact ih buf x hxn (fun x1 h1 h2 => hinj x1 h1 (by omega)) hlen
    · have hxeq : x = n := by omega
      subst hxeq
      exact List.getElem?_set_self (by rw [foldl_set_length]; exact hlen)

theorem grid_fold_length (g : ℕ → ℕ → Color) (w : ℕ) :
    ∀ (m : ℕ) (buf : List Color),
      ((List.range m).foldl (fun b y =>
          (List.range w).foldl (fun b x => b.set (y * w + x) (g x y)) b)
        buf).length = buf.length := by
  intro m
  induction m with
  | zero => intro buf; rfl
  | succ m ih =>
    intro buf
    rw [List.range_succ, List.foldl_append, List.foldl_cons, List.foldl_nil,
      foldl_set_length (fun x => m * w + x) (fun x => g x m), ih]

theorem grid_fold_getElem (g : ℕ → ℕ → Color) (w : ℕ) :
    ∀ (m : ℕ) (buf : List Color) (x y : ℕ), x < w → y < m →
      y * w + x < buf.length →
      ((List.range m).foldl (fun b y =>
          (List.range w).foldl (fun b x => b.set (y * w + x) (g x y)) b)
        buf)[y * w + x]? = some (g x y) := by
  intro m
  induction m with
  | zero => intro buf x y hx hy; omega
  | succ m ih =>
    intro buf x y hx hy hlen
    rw [List.range_succ, List.foldl_append, List.foldl_cons, List.foldl_nil]
    rcases Nat.lt_or_ge y m with hym | hym
    · have hbelow : ∀ x1, x1 < w → m * w + x1 ≠ y * w + x := by
        intro x1 hx1
        have h1 : (y + 1) * w ≤ m * w := Nat.mul_le_mul_right w (by omega)
        rw [Nat.succ_mul] at h1
        omega
      rw [foldl_set_getElem_ne (fun x1 => m * w + x1) (fun x1 => g x1 m) w _ _
        hbelow]
      exact ih buf x y hx hym hlen
    · have hyeq : y = m := by omega
      subst hyeq
      refine foldl_set_getElem_hit (fun x1 => y * w + x1) (fun x1 => g x1 y) w
        _ x hx (fun x1 h1 h2 => by show y * w + x1 ≠ y * w + x; omega) ?_
      rw [grid_fold_length]
      exact hlen

/-- Claim C4: whenever the buffer has exactly `width * height` pixels, `render`
succeeds and the pixel stored at linear index `y * width + x` (for any
`x < width`, `y < height`) is the color of the mapped coordinate's escape
time at the fixed limit 255. -/
theorem render_populates (pixels : List Color) (bounds : ℕ × ℕ)
    (upper_left lower_right : Cplx) (x y : ℕ)
    (hlen : pixels.length = bounds.1 * bounds.2)
    (hx : x < bounds.1) (hy : y < bounds.2) :
    ∃ out, render pixels bounds upper_left lower_right = some out ∧
      out.length = bounds.1 * bounds.2 ∧
      out[y * bounds.1 + x]? =
        some (colorPixel (mandelbrot
          (pixel_to_point bounds (x, y) upper_left lower_right) 255)) := by
  have hidx : y * bounds.1 + x < pixels.length := by
    have h1 : (y + 1) * bounds.1 ≤ bounds.2 * bounds.1 :=
      Nat.mul_le_mul_right bounds.1 (by omega)
    rw [Nat.succ_mul] at h1
    have h2 : bounds.1 * bounds.2 = bounds.2 * bounds.1 := Nat.mul_comm _ _
    omega
  rw [render, if_pos hlen]
  refine ⟨_, rfl, ?_, ?_⟩
  · rw [grid_fold_length
      (fun xx yy => colorPixel (mandelbrot
        (pixel_to_point bounds (xx, yy) upper_left lower_right) 255))
      bounds.1 bounds.2 pixels]
    exact hlen
  · exact grid_fold_getElem
      (fun xx yy => colorPixel (mandelbrot
        (pixel_to_point bounds (xx, yy) upper_left lower_right) 255))
      bounds.1 bounds.2 pixels x y hx hy hidx

/-- Claim C4 witness: a 1-by-1 render of the degenerate rectangle at the
origin; the origin never escapes, so the single pixel is black. -/
theorem render_populates_witness :
    ∃ out, render [⟨9, 9, 9⟩] (1, 1) ⟨0, 0⟩ ⟨0, 0⟩ = some out ∧
      out.length = 1 * 1 ∧
      out[0 * 1 + 0]? =
        some (colorPixel (mandelbrot
          (pixel_to_point (1, 1) (0, 0) ⟨0, 0⟩ ⟨0, 0⟩) 255)) :=
  render_populates [⟨9, 9, 9⟩] (1, 1) ⟨0, 0⟩ ⟨0, 0⟩ 0 0 (by norm_num)
    (by norm_num) (by norm_num)

/-- Claim C8: `render` fails fast (the assertion panic, modelled as `none`)
exactly when the buffer length differs from `width * height`; on the
buffer `main` constructs, with exactly `width * height` elements, the
failure branch is unreachable. -/
theorem render_fail_iff :
    (∀ (pixels : List Color) (bounds : ℕ × ℕ) (ul lr : Cplx),
        render pixels bounds ul lr = none ↔
          pixels.length ≠ bounds.1 * bounds.2) ∧
    (∀ (w h : ℕ) (ul lr : Cplx),
        (render (List.replicate (w * h) ⟨0, 0, 0⟩) (w, h) ul lr).isSome =
          true) := by
  constructor
  · intro pixels bounds ul lr
    rw [render]
    by_cases hlen : pixels.length = bounds.1 * bounds.2
    · rw [if_pos hlen]
      simp [hlen]
    · rw [if_neg hlen]
      simp [hlen]
  · intro w h ul lr
    rw [render, if_pos (by simp)]
    rfl

/-- Claim C8 witness: an empty buffer with 1-by-1 bounds makes `render` fail. -/
theorem render_fail_iff_witness : render [] (1, 1) ⟨0, 0⟩ ⟨0, 0⟩ = none :=
  (render_fail_iff.1 [] (1, 1) ⟨0, 0⟩ ⟨0, 0⟩).mpr (by norm_num)

end Mandelbrot
